import Mathlib

/-!
Shallow embedding of `src/ArbBitField.py` (class `ArbBitField`, Python 2).

Strings are modelled as `List Char`; Python's arbitrary-precision signed
integers as `Int` (with floor-division `Int.fdiv` for `>>` and Euclidean
`%` matching Python's nonnegative `%` for a positive modulus); mutating
methods are modelled as functions returning the new object; code that can
raise returns `Except PyErr _`.
-/

/-- Python exception kinds raised by the source code paths we model:
`assert` failures, `len()` applied to an `int` (`TypeError`), and
out-of-range `bytearray` indexing (`IndexError`). -/
inductive PyErr where
  | assertionError
  | typeError
  | indexError
deriving DecidableEq

/-- The `ArbBitField` object state: the format string `self.fmt` and the
value string `self.val`, each modelled as a list of characters. -/
structure ArbBitField where
  fmt : List Char
  val : List Char
deriving DecidableEq

namespace ArbBitField

/-- Source `''.join(['%d'%x for x in range(10)])`: the decimal digit characters,
used by `_field_to_int_` and in building `legalValChars`. -/
def digitChars : List Char := (List.range 10).map (fun x => Char.ofNat ('0'.toNat + x))

/-- Source `ArbBitField.legalValChars = ['%d'%x for x in range(10)] +
['%s'%chr(x+ord('A')) for x in range(16)]` — note `range(16)`, so the
letters run `'A'..'P'` only. -/
def legalValChars : List Char :=
  digitChars ++ (List.range 16).map (fun x => Char.ofNat (x + 'A'.toNat))

/-- Source `ArbBitField.legalFmtChars = ['%d'%x for x in range(1, 6)]`, i.e. `'1'..'5'`. -/
def legalFmtChars : List Char := (List.range' 1 5).map (fun x => Char.ofNat ('0'.toNat + x))

/-- The filtering step of `_clean_val_`:
`''.join([x for x in val.upper() if x in ArbBitField.legalValChars])`. -/
def filter_val (val : List Char) : List Char :=
  (val.map Char.toUpper).filter (fun c => decide (c ∈ legalValChars))

/-- Source `_clean_val_(self, val)`: filter (or `''` for `None`), truncate to the
format length, then pad on the right with `'0'` to the format length. -/
def clean_val (fmt : List Char) (val : Option (List Char)) : List Char :=
  let v : List Char :=
    match val with
    | none => []
    | some s => filter_val s
  let v := v.take fmt.length
  v ++ List.replicate (fmt.length - v.length) '0'

/-- Source `__init__(self, fmt, val=None)`: `assert not '0' in fmt`, then keep only
legal format characters of `fmt.upper()` and normalize `val` via
`_clean_val_`.  (Named `init` because `mk` is the structure constructor.) -/
def init (fmt : List Char) (val : Option (List Char)) : Except PyErr ArbBitField :=
  if '0' ∈ fmt then .error .assertionError
  else
    let f := (fmt.map Char.toUpper).filter (fun c => decide (c ∈ legalFmtChars))
    .ok ⟨f, clean_val f val⟩

/-- Source `set_val(self, val)` (the `value` property setter). -/
def set_val (a : ArbBitField) (val : Option (List Char)) : ArbBitField :=
  { a with val := clean_val a.fmt val }

/-- Source `_field_to_int_(field)`: a decimal digit maps to its value, anything
else to `10 + ord(field) - ord('A')` (an `Int`, as the Python expression
can be negative for characters below `'A'`). -/
def field_to_int (field : Char) : Int :=
  if field ∈ digitChars then ((field.toNat - '0'.toNat : Nat) : Int)
  else 10 + (field.toNat : Int) - ('A'.toNat : Int)

/-- The loop bound `count = ArbBitField._to_int_(fmt_c)` as used by
`range(count)`: Python's `range` of a negative number is empty, which
`Int.toNat` mirrors. -/
def fmtCount (c : Char) : Nat := (field_to_int c).toNat

/-- The integer accumulated by `_to_char_`:
`sum([(1 << bit_n) if val_c == '1' else 0 for bit_n, val_c in enumerate(val[::-1])])`. -/
def to_char_vint (val : List Char) : Nat :=
  (val.reverse.enum.map (fun p => if p.2 = '1' then 2 ^ p.1 else 0)).sum

/-- Source `_to_char_(val)`: interpret a string of `'0'`/`'1'` characters (MSB
first) as an integer and render it as one symbol character
(`chr(vint + offset)` with `offset = ord('A')-10` above 9, else `ord('0')`). -/
def to_char (val : List Char) : Char :=
  let vint := to_char_vint val
  let offset := if vint > 9 then 'A'.toNat - 10 else '0'.toNat
  Char.ofNat (vint + offset)

/-- Python `1 & (tmp >> bit_n)` for an arbitrary-precision integer `tmp`:
arithmetic (floor) right shift, then the low bit, which is `% 2` with a
nonnegative result. -/
def pyBit (v : Int) (n : Nat) : Int := (v.fdiv (2 ^ n)) % 2

/-- The per-field bit expansion inlined in `bool()`:
`[bool(1 & tmp >> c) for c in range(count)]` when reversing bits
(LSB first), `... range(count)[::-1]` otherwise (MSB first). -/
def encField (v : Int) (count : Nat) (rev_bits : Bool) : List Bool :=
  if rev_bits then (List.range count).map (fun c => decide (pyBit v c ≠ 0))
  else ((List.range count).reverse).map (fun c => decide (pyBit v c ≠ 0))

/-- Source `bool(self, rev_bits=False, rev_fields=False)`: optionally reverse the
format and value strings, then concatenate each field's bit expansion.
`tmp_val[fmt_idx]` is total in the source only because `len(val) == len(fmt)`
is an invariant; out-of-range access is modelled with a default character. -/
def bool (a : ArbBitField) (rev_bits rev_fields : Bool) : List Bool :=
  let tmp_fmt := if rev_fields then a.fmt.reverse else a.fmt
  let tmp_val := if rev_fields then a.val.reverse else a.val
  (tmp_fmt.enum.map (fun q =>
    encField (field_to_int (tmp_val.getD q.1 ' ')) (fmtCount q.2) rev_bits)).flatten

/-- Source `'%s'%('1' if x else '0')` — the bool-to-character conversion in `set_bool`. -/
def boolChar (b : Bool) : Char := if b then '1' else '0'

/-- The accumulation loop of `set_bool`: walk the (possibly reversed) format
characters; for each, slice `tmp_val[offset:offset+count]` (Python slicing
clamps, as `drop`/`take` do), reverse the chunk when `rev_bits`, convert it
with `_to_char_`, and advance `offset` by `count`. -/
def set_bool_go (rev_bits : Bool) (tmp_val : List Char) : List Char → Nat → List Char
  | [], _ => []
  | fmt_c :: rest, offset =>
    let count := fmtCount fmt_c
    let chunk := (tmp_val.drop offset).take count
    to_char (if rev_bits then chunk.reverse else chunk) ::
      set_bool_go rev_bits tmp_val rest (offset + count)

/-- Source `set_bool(self, b_lst, rev_bits=False, rev_fields=False)`: build `vstr`
field by field from the boolean list and store it (reversed again when
`rev_fields`) as the new value string. -/
def set_bool (a : ArbBitField) (b_lst : List Bool) (rev_bits rev_fields : Bool) :
    ArbBitField :=
  let tmp_fmt := if rev_fields then a.fmt.reverse else a.fmt
  let tmp_val := b_lst.map boolChar
  let vstr := set_bool_go rev_bits tmp_val tmp_fmt 0
  { a with val := if rev_fields then vstr.reverse else vstr }

/-- Source `__add__(self, rhs)`: `copy.copy(self)` then append `rhs`'s format and
value strings; a pure value-producing operation (the operands are untouched). -/
def add (a rhs : ArbBitField) : ArbBitField := ⟨a.fmt ++ rhs.fmt, a.val ++ rhs.val⟩

/-- A `__setitem__` key: a single (nonnegative) integer index, or a
`lo:hi` slice with nonnegative bounds and no step — the only slice forms the
source supports ("Slices are partially supported ... but not the slice step"). -/
inductive Key where
  | idx (i : Nat)
  | slice (lo hi : Nat)
deriving DecidableEq

/-- Source `__setitem__(self, key, val_c)` over `tmp = bytearray(self.val)`.
For an integer key, `tmp[key]` is an `int` in Python 2, so
`len(tmp[key])` raises `TypeError` (or `IndexError` first when the index is
out of range) — the assignment can never succeed.  For a slice key, the
addressed range is `tmp[lo:hi]` (clamped), the assert compares its length
with `len(val_c)`, and on success the slice is overwritten in place. -/
def setitem (a : ArbBitField) (key : Key) (val_c : List Char) : Except PyErr ArbBitField :=
  match key with
  | .idx i => if i < a.val.length then .error .typeError else .error .indexError
  | .slice lo hi =>
    let addressed := (a.val.drop lo).take (hi - lo)
    if addressed.length = val_c.length then
      .ok { a with val := a.val.take lo ++ val_c ++ a.val.drop (lo + addressed.length) }
    else .error .assertionError

/-- The 32-symbol alphabet `{0-9, A-V}` named by the specification (the
canonical rendering of the integers 0..31 via `_to_char_`). -/
def canonicalSymbols : List Char := "0123456789ABCDEFGHIJKLMNOPQRSTUV".data

/-- The nonnegative integer denoted by a canonical symbol character. -/
def symNat (c : Char) : Nat :=
  if c ∈ digitChars then c.toNat - '0'.toNat else c.toNat - ('A'.toNat - 10)

end ArbBitField

deriving instance DecidableEq for Except

namespace ArbBitField

/-! ### Helper lemmas -/

theorem clean_val_length (fmt : List Char) (val : Option (List Char)) :
    (clean_val fmt val).length = fmt.length := by
  simp only [clean_val, List.length_append, List.length_take, List.length_replicate]
  omega

theorem init_ok {fmtS : List Char} {valS : Option (List Char)} {a : ArbBitField}
    (h : init fmtS valS = .ok a) :
    a.fmt = (fmtS.map Char.toUpper).filter (fun c => decide (c ∈ legalFmtChars)) ∧
    a.val = clean_val a.fmt valS := by
  by_cases h0 : '0' ∈ fmtS
  · simp [init, h0] at h
  · simp only [init, h0, if_neg, ite_false, Except.ok.injEq] at h
    subst h
    exact ⟨rfl, rfl⟩

theorem set_bool_go_length (rb : Bool) (tv : List Char) :
    ∀ (fmts : List Char) (off : Nat), (set_bool_go rb tv fmts off).length = fmts.length := by
  intro fmts
  induction fmts with
  | nil => intro off; rfl
  | cons f rest ih => intro off; simp [set_bool_go, ih]

theorem clean_val_mem {fmt : List Char} {val : Option (List Char)} {c : Char}
    (h : c ∈ clean_val fmt val) : c ∈ legalValChars := by
  simp only [clean_val, List.mem_append] at h
  rcases h with h | h
  · have h' := List.mem_of_mem_take h
    cases val with
    | none => simp at h'
    | some s =>
      simp only [filter_val, List.mem_filter] at h'
      exact of_decide_eq_true h'.2
  · have : c = '0' := List.eq_of_mem_replicate h
    subst this
    decide

theorem legalValChars_sub_canonical : ∀ c ∈ legalValChars, c ∈ canonicalSymbols := by
  decide

/-! ### Claim theorems: error handling and concrete behaviors -/

/-- Claim C2, behavior of the code at the failing input: the format `"34"`
requires 3 + 4 = 7 bits, yet `set_bool` given an empty boolean list does not
fail — it silently produces the full-length Value `"00"` (each field decoded
from an empty chunk). -/
theorem set_bool_short_input_truncates :
    fmtCount '3' + fmtCount '4' = 7 ∧
    ((⟨['3','4'], ['0','0']⟩ : ArbBitField).set_bool [] false false).val = ['0','0'] := by
  decide

/-- Claim C3, behavior of the code at the failing input: the constructor's
`legalValChars` uses `range(16)`, so the letters stop at `'P'`; the characters
`'Q'`–`'V'` of the 32-symbol alphabet are dropped from a value string (here
`'V'` is dropped and replaced by pad `'0'`), contradicting the claim and the
source's own docstring ("Legal value characters are 1..9, A..V"). -/
theorem construction_drops_letters_above_P :
    init ['5'] (some ['V']) = .ok ⟨['5'], ['0']⟩ ∧
    init ['5'] (some ['Q']) = .ok ⟨['5'], ['0']⟩ ∧
    legalValChars = "0123456789ABCDEFGHIJKLMNOP".data ∧
    'Q' ∉ legalValChars ∧ 'V' ∉ legalValChars := by
  decide

/-- Claim C4, counterexample: a format string whose characters are all
filtered out is accepted — construction returns an empty layout instead of
failing as the claim requires. -/
theorem empty_format_accepted : init ['x'] none = .ok ⟨[], []⟩ := by
  decide

/-- Claim C4, amended: construction fails (the `assert`) exactly when the raw
format string contains the literal character `'0'`; when it does not, the
construction succeeds even if the filtered format is empty. -/
theorem init_fails_iff_zero_in_fmt :
    ∀ (fmtS : List Char) (valS : Option (List Char)),
      (init fmtS valS = .error .assertionError ↔ '0' ∈ fmtS) ∧
      ('0' ∉ fmtS → ∃ a, init fmtS valS = .ok a) := by
  intro fmtS valS
  by_cases h0 : '0' ∈ fmtS
  · simp [init, h0]
  · simp [init, h0]

theorem init_fails_iff_zero_in_fmt_witness :
    (init ['0'] none = .error .assertionError) ∧ ∃ a, init ['x'] (some ['3']) = .ok a :=
  ⟨(init_fails_iff_zero_in_fmt ['0'] none).1.mpr (by decide),
   (init_fails_iff_zero_in_fmt ['x'] (some ['3'])).2 (by decide)⟩

/-- Claim C10: `set_bool` stores the decoded symbols without re-filtering
against `legalValChars`: decoding five `True`s for a width-5 field stores
`'V'` (31) into the value string, although `'V'` passed to construction or
`set_val` is silently dropped (the retained letters stop at `'P'`). -/
theorem set_bool_stores_unfiltered_symbol :
    ((⟨['5'], ['0']⟩ : ArbBitField).set_bool [true,true,true,true,true] false false).val = ['V'] ∧
    init ['5'] (some ['V']) = .ok ⟨['5'], ['0']⟩ ∧
    ((⟨['5'], ['0']⟩ : ArbBitField).set_val (some ['V'])).val = ['0'] ∧
    legalValChars = "0123456789ABCDEFGHIJKLMNOP".data := by
  decide

/-- Claim C8: concatenation produces a layout whose format is the two formats
appended and whose value is the two values appended (the operands, being
values, are untouched); at the spec's example, `("34","31") + ("55","5B")`
gives format `"3455"` and value `"315B"`. -/
theorem add_concat :
    (∀ a b : ArbBitField, (a.add b).fmt = a.fmt ++ b.fmt ∧ (a.add b).val = a.val ++ b.val) ∧
    init ['5','5'] (some ['5','b']) = .ok ⟨['5','5'], ['5','B']⟩ ∧
    (ArbBitField.mk ['3','4'] ['3','1']).add ⟨['5','5'], ['5','B']⟩ =
      ⟨['3','4','5','5'], ['3','1','5','B']⟩ :=
  ⟨fun _ _ => ⟨rfl, rfl⟩, by decide, rfl⟩

/-- Claim C9, counterexample: assignment through a single integer index fails
even when the replacement length (1) equals the addressed range's length (1):
in Python 2, `bytearray(self.val)[1]` is an `int`, so `len(tmp[key])` raises
`TypeError`, not the length-mismatch `assert`. -/
theorem setitem_index_matching_length_fails :
    (⟨['3','3','3'], ['0','1','2']⟩ : ArbBitField).setitem (.idx 1) ['A'] =
      .error .typeError := by
  decide

/-- Claim C9, amended: for slice keys, `__setitem__` fails with the length
`assert` exactly when the replacement's length differs from the addressed
(clamped) range's length; when they match it overwrites exactly the addressed
positions with the raw replacement characters, leaving every other position of
the value unchanged (the spec example included); assignment through a single
integer index always fails — with `TypeError`/`IndexError`, never succeeding. -/
theorem setitem_slice_spec :
    (∀ (a : ArbBitField) (lo hi : Nat) (repl : List Char),
       (a.setitem (.slice lo hi) repl = .error .assertionError ↔
          ((a.val.drop lo).take (hi - lo)).length ≠ repl.length) ∧
       (((a.val.drop lo).take (hi - lo)).length = repl.length →
          a.setitem (.slice lo hi) repl =
            .ok ⟨a.fmt, a.val.take lo ++ repl ++ a.val.drop (lo + repl.length)⟩)) ∧
    (∀ (a : ArbBitField) (i : Nat) (repl : List Char) (r : ArbBitField),
       a.setitem (.idx i) repl ≠ .ok r) ∧
    (⟨['3','3','3'], ['0','1','2']⟩ : ArbBitField).setitem (.slice 1 3) ['A','B'] =
      .ok ⟨['3','3','3'], ['0','A','B']⟩ := by
  refine ⟨fun a lo hi repl => ⟨?_, ?_⟩, fun a i repl r => ?_, by decide⟩
  · constructor
    · intro h hlen
      simp only [setitem, hlen, if_pos] at h
      simp at h
    · intro hne
      simp only [setitem, hne, if_neg, ite_false]
  · intro hlen
    simp only [setitem, hlen, if_pos, ite_true, hlen]
  · simp only [setitem]
    split <;> simp

theorem setitem_slice_spec_witness :
    (⟨['3','3','3'], ['0','1','2']⟩ : ArbBitField).setitem (.slice 0 2) ['7','8'] =
      .ok ⟨['3','3','3'], ['7','8','2']⟩ := by
  have h := (setitem_slice_spec.1 ⟨['3','3','3'], ['0','1','2']⟩ 0 2 ['7','8']).2 (by decide)
  simpa using h

/-- Claim C5: `len(Value) == len(Format)` holds after construction and is
preserved by every mutating operation — `set_val`, `set_bool` (which produces
exactly one symbol per format character, unconditionally), successful
indexed/sliced assignment, and concatenation. -/
theorem length_invariant :
    (∀ (fmtS : List Char) (valS : Option (List Char)) (a : ArbBitField),
       init fmtS valS = .ok a → a.val.length = a.fmt.length) ∧
    (∀ (a : ArbBitField) (v : Option (List Char)),
       (a.set_val v).val.length = (a.set_val v).fmt.length) ∧
    (∀ (a : ArbBitField) (bl : List Bool) (rb rf : Bool),
       (a.set_bool bl rb rf).val.length = (a.set_bool bl rb rf).fmt.length) ∧
    (∀ (a : ArbBitField) (k : Key) (repl : List Char) (a' : ArbBitField),
       a.val.length = a.fmt.length → a.setitem k repl = .ok a' →
       a'.val.length = a'.fmt.length) ∧
    (∀ a b : ArbBitField, a.val.length = a.fmt.length → b.val.length = b.fmt.length →
       (a.add b).val.length = (a.add b).fmt.length) := by
  refine ⟨?_, ?_, ?_, ?_, ?_⟩
  · intro fmtS valS a h
    obtain ⟨-, hval⟩ := init_ok h
    rw [hval, clean_val_length]
  · intro a v
    simp [set_val, clean_val_length]
  · intro a bl rb rf
    cases rf <;> simp [set_bool, set_bool_go_length]
  · intro a k repl a' hinv h
    cases k with
    | idx i => simp only [setitem] at h; split at h <;> cases h
    | slice lo hi =>
      simp only [setitem] at h
      split at h
      · rename_i hlen
        cases h
        simp only [List.length_append, List.length_take, List.length_drop]
        simp only [List.length_take, List.length_drop] at hlen
        omega
      · cases h
  · intro a b ha hb
    simp [add, ha, hb]

theorem length_invariant_witness :
    ((⟨['3','4'], ['3','1']⟩ : ArbBitField).val.length =
       (⟨['3','4'], ['3','1']⟩ : ArbBitField).fmt.length) ∧
    ((⟨['3','3','3'], ['0','A','B']⟩ : ArbBitField).val.length =
       (⟨['3','3','3'], ['0','A','B']⟩ : ArbBitField).fmt.length) ∧
    (((⟨['3','4'], ['3','1']⟩ : ArbBitField).add ⟨['5','5'], ['5','B']⟩).val.length =
       ((⟨['3','4'], ['3','1']⟩ : ArbBitField).add ⟨['5','5'], ['5','B']⟩).fmt.length) :=
  ⟨length_invariant.1 ['3','4'] (some ['3','1']) _ (by decide),
   length_invariant.2.2.2.1 ⟨['3','3','3'], ['0','1','2']⟩ (.slice 1 3) ['A','B'] _
     (by decide) (by decide),
   length_invariant.2.2.2.2 _ _ (by decide) (by decide)⟩

/-- Claim C7: after filtering, a value string shorter than the format is
padded on the right with `'0'` symbols to the format length, and a longer one
is truncated to the format length; an absent value yields all-`'0'` symbols;
at the spec's example, format `"34"` with value `"3"` stores `"30"`. -/
theorem clean_val_pad_truncate :
    (∀ (fmt v : List Char), (filter_val v).length ≤ fmt.length →
       clean_val fmt (some v) =
         filter_val v ++ List.replicate (fmt.length - (filter_val v).length) '0') ∧
    (∀ (fmt v : List Char), fmt.length ≤ (filter_val v).length →
       clean_val fmt (some v) = (filter_val v).take fmt.length) ∧
    (∀ fmt : List Char, clean_val fmt none = List.replicate fmt.length '0') ∧
    init ['3','4'] (some ['3']) = .ok ⟨['3','4'], ['3','0']⟩ ∧
    init ['3','4'] none = .ok ⟨['3','4'], ['0','0']⟩ := by
  refine ⟨?_, ?_, ?_, by decide, by decide⟩
  · intro fmt v h
    simp only [clean_val]
    rw [List.take_of_length_le h]
  · intro fmt v h
    have h0 : fmt.length - min fmt.length (filter_val v).length = 0 := by omega
    simp only [clean_val, List.length_take, h0, List.replicate_zero, List.append_nil]
  · intro fmt
    simp [clean_val]

theorem clean_val_pad_truncate_witness :
    clean_val ['3','4'] (some ['3']) = ['3','0'] ∧
    clean_val ['1'] (some ['2','5']) = ['2'] := by
  constructor
  · have h := clean_val_pad_truncate.1 ['3','4'] ['3'] (by decide)
    rw [h]; decide
  · have h := clean_val_pad_truncate.2.1 ['1'] ['2','5'] (by decide)
    rw [h]; decide

end ArbBitField

namespace ArbBitField

/-! ### Bit-level helper lemmas -/

theorem pyBit_natCast (n i : Nat) :
    pyBit (n : Int) i = ((n / 2 ^ i % 2 : Nat) : Int) := by
  have h2 : ((2 : Int) ^ i) = ((2 ^ i : Nat) : Int) := by push_cast; ring
  simp only [pyBit, h2]
  rw [← Int.ofNat_fdiv]
  exact (Int.ofNat_emod _ 2).symm

theorem pyBit_testBit (n i : Nat) :
    decide (pyBit (n : Int) i ≠ 0) = n.testBit i := by
  rw [Nat.testBit_to_div_mod, pyBit_natCast]
  rcases Nat.mod_two_eq_zero_or_one (n / 2 ^ i) with h | h <;> simp [h]

theorem encField_natCast (n w : Nat) (rb : Bool) :
    encField (n : Int) w rb =
      if rb then (List.range w).map (fun c => n.testBit c)
      else ((List.range w).reverse).map (fun c => n.testBit c) := by
  simp only [encField, pyBit_testBit]

theorem enumFrom_append_helper (l₁ l₂ : List Char) :
    ∀ n : Nat, (l₁ ++ l₂).enumFrom n = l₁.enumFrom n ++ l₂.enumFrom (n + l₁.length) := by
  induction l₁ with
  | nil => intro n; simp [List.enumFrom]
  | cons a as ih =>
    intro n
    have harith : n + 1 + as.length = n + (as.length + 1) := by omega
    simp only [List.cons_append, List.enumFrom_cons, ih (n + 1), List.length_cons, harith]

theorem to_char_vint_cons (c : Char) (l : List Char) :
    to_char_vint (c :: l) = (if c = '1' then 2 ^ l.length else 0) + to_char_vint l := by
  simp only [to_char_vint, List.reverse_cons, List.enum, enumFrom_append_helper,
    Nat.zero_add, List.map_append, List.sum_append, List.length_reverse]
  simp [List.enumFrom, Nat.add_comm]

theorem vint_msb_chunk (w n : Nat) :
    to_char_vint (((List.range w).reverse).map (fun i => boolChar (n.testBit i))) =
      n % 2 ^ w := by
  induction w with
  | zero => simp [to_char_vint, List.enum, Nat.mod_one]
  | succ w ih =>
    rw [List.range_succ, List.reverse_append]
    simp only [List.reverse_cons, List.reverse_nil, List.nil_append, List.map_cons,
      List.singleton_append]
    rw [to_char_vint_cons, ih]
    have hlen : (((List.range w).reverse).map (fun i => boolChar (n.testBit i))).length = w := by
      simp
    rw [hlen]
    have hmod : n % 2 ^ (w + 1) = n % 2 ^ w + 2 ^ w * (n / 2 ^ w % 2) := by
      rw [Nat.pow_succ, Nat.mod_mul]
    rw [Nat.testBit_to_div_mod]
    rcases Nat.mod_two_eq_zero_or_one (n / 2 ^ w) with h | h
    · simp [boolChar, h, hmod]
    · simp only [boolChar, h, hmod]
      simp
      omega

theorem field_to_int_canonical : ∀ c ∈ canonicalSymbols, field_to_int c = (symNat c : Int) := by
  decide

theorem to_char_canonical :
    ∀ c ∈ canonicalSymbols,
      Char.ofNat (symNat c + (if symNat c > 9 then 'A'.toNat - 10 else '0'.toNat)) = c := by
  decide

theorem encField_length (v : Int) (w : Nat) (rb : Bool) : (encField v w rb).length = w := by
  cases rb <;> simp [encField]

theorem to_char_encField (c : Char) (w : Nat) (rb : Bool)
    (hc : c ∈ canonicalSymbols) (hlt : field_to_int c < 2 ^ w) :
    to_char
      (if rb then ((encField (field_to_int c) w rb).map boolChar).reverse
       else (encField (field_to_int c) w rb).map boolChar) = c := by
  rw [field_to_int_canonical c hc] at hlt ⊢
  have hlt' : symNat c < 2 ^ w := by exact_mod_cast hlt
  have hchunk :
      (if rb then ((encField ((symNat c : Int)) w rb).map boolChar).reverse
       else (encField ((symNat c : Int)) w rb).map boolChar) =
        ((List.range w).reverse).map (fun i => boolChar ((symNat c).testBit i)) := by
    rw [encField_natCast]
    cases rb
    · simp [List.map_map]
    · simp only [ite_true, ite_false]
      rw [← List.map_reverse, ← List.map_reverse, List.map_map]
      rfl
  rw [hchunk]
  simp only [to_char, vint_msb_chunk, Nat.mod_eq_of_lt hlt']
  exact to_char_canonical c hc

/-! ### Decode and encode as structural recursions over the field list -/

theorem set_bool_go_decode (rb : Bool) :
    ∀ (fmt val : List Char) (tmp_val rest : List Char) (offset : Nat),
      fmt.length = val.length →
      (∀ q ∈ fmt.zip val, q.2 ∈ canonicalSymbols ∧ field_to_int q.2 < 2 ^ fmtCount q.1) →
      tmp_val.drop offset =
        ((fmt.zip val).map
          (fun q => (encField (field_to_int q.2) (fmtCount q.1) rb).map boolChar)).flatten ++
          rest →
      set_bool_go rb tmp_val fmt offset = val := by
  intro fmt
  induction fmt with
  | nil =>
    intro val tmp_val rest offset hlen _ _
    cases val with
    | nil => rfl
    | cons v vs => cases hlen
  | cons f fs ih =>
    intro val tmp_val rest offset hlen hq hdrop
    cases val with
    | nil => cases hlen
    | cons v vs =>
      have hq0 : v ∈ canonicalSymbols ∧ field_to_int v < 2 ^ fmtCount f :=
        hq (f, v) (by simp [List.zip_cons_cons])
      have henc : ((encField (field_to_int v) (fmtCount f) rb).map boolChar).length =
          fmtCount f := by
        simp [encField_length]
      simp only [List.zip_cons_cons, List.map_cons, List.flatten_cons, List.append_assoc]
        at hdrop
      show to_char _ :: set_bool_go rb tmp_val fs (offset + fmtCount f) = v :: vs
      have hchunk : (tmp_val.drop offset).take (fmtCount f) =
          (encField (field_to_int v) (fmtCount f) rb).map boolChar := by
        rw [hdrop]
        exact List.take_left' henc
      have hdrop' : tmp_val.drop (offset + fmtCount f) =
          ((fs.zip vs).map
            (fun q => (encField (field_to_int q.2) (fmtCount q.1) rb).map boolChar)).flatten ++
            rest := by
        rw [← List.drop_drop, hdrop]
        exact List.drop_left' henc
      congr 1
      · rw [hchunk]
        exact to_char_encField v (fmtCount f) rb hq0.1 hq0.2
      · exact ih vs tmp_val rest (offset + fmtCount f) (by simpa using hlen)
          (fun q hmem => hq q (by simp [List.zip_cons_cons, hmem]))
          hdrop'

theorem enumFrom_getD_zip :
    ∀ (fmt val pre : List Char) (rb : Bool),
      val.length = fmt.length →
      (fmt.enumFrom pre.length).map (fun q =>
          encField (field_to_int ((pre ++ val).getD q.1 ' ')) (fmtCount q.2) rb) =
        (fmt.zip val).map (fun q => encField (field_to_int q.2) (fmtCount q.1) rb) := by
  intro fmt
  induction fmt with
  | nil =>
    intro val pre rb hlen
    cases val with
    | nil => rfl
    | cons v vs => cases hlen
  | cons f fs ih =>
    intro val pre rb hlen
    cases val with
    | nil => cases hlen
    | cons v vs =>
      simp only [List.enumFrom_cons, List.map_cons, List.zip_cons_cons]
      congr 1
      · have hget : (pre ++ v :: vs).getD pre.length ' ' = v := by
          rw [List.getD_eq_getElem?_getD, List.getElem?_append_right (Nat.le_refl _)]
          simp
        rw [hget]
      · have hpre : (pre ++ [v]).length = pre.length + 1 := by simp
        have happ : (pre ++ [v]) ++ vs = pre ++ v :: vs := by simp
        have := ih vs (pre ++ [v]) rb (by simpa using hlen)
        rw [hpre, happ] at this
        exact this

theorem bool_eq_zip (fmt val : List Char) (rb : Bool) (h : val.length = fmt.length) :
    (ArbBitField.mk fmt val).bool rb false =
      ((fmt.zip val).map (fun q => encField (field_to_int q.2) (fmtCount q.1) rb)).flatten := by
  show ((fmt.enum.map (fun q =>
      encField (field_to_int (val.getD q.1 ' ')) (fmtCount q.2) rb))).flatten = _
  have := enumFrom_getD_zip fmt val [] rb h
  simp only [List.nil_append, List.length_nil] at this
  rw [List.enum]
  rw [this]

theorem zip_reverse' :
    ∀ (l₁ l₂ : List Char), l₁.length = l₂.length →
      l₁.reverse.zip l₂.reverse = (l₁.zip l₂).reverse := by
  intro l₁
  induction l₁ with
  | nil =>
    intro l₂ h
    cases l₂ with
    | nil => rfl
    | cons b bs => cases h
  | cons a as ih =>
    intro l₂ h
    cases l₂ with
    | nil => cases h
    | cons b bs =>
      have hlen' : as.length = bs.length := by simpa using h
      simp only [List.reverse_cons, List.zip_cons_cons]
      rw [List.zip_append (by simp [hlen']), ih bs hlen']
      simp

theorem roundtrip_core (fmt val : List Char) (hlen : val.length = fmt.length)
    (hq : ∀ q ∈ fmt.zip val, q.2 ∈ canonicalSymbols ∧ field_to_int q.2 < 2 ^ fmtCount q.1) :
    ∀ rb rf : Bool,
      (ArbBitField.mk fmt val).set_bool ((ArbBitField.mk fmt val).bool rb rf) rb rf =
        ArbBitField.mk fmt val := by
  intro rb rf
  have hfmtlen : fmt.length = val.length := hlen.symm
  cases rf
  · have hbl : (((ArbBitField.mk fmt val).bool rb false).map boolChar) =
        ((fmt.zip val).map
          (fun q => (encField (field_to_int q.2) (fmtCount q.1) rb).map boolChar)).flatten := by
      rw [bool_eq_zip fmt val rb hlen, List.map_flatten, List.map_map]
      rfl
    have hgo : set_bool_go rb (((ArbBitField.mk fmt val).bool rb false).map boolChar) fmt 0 =
        val := by
      apply set_bool_go_decode rb fmt val _ [] 0 hfmtlen hq
      rw [List.drop_zero, hbl, List.append_nil]
    show (⟨fmt, set_bool_go rb (((ArbBitField.mk fmt val).bool rb false).map boolChar) fmt 0⟩ :
        ArbBitField) = ArbBitField.mk fmt val
    rw [hgo]
  · have hrev : (ArbBitField.mk fmt val).bool rb true =
        (ArbBitField.mk fmt.reverse val.reverse).bool rb false := rfl
    have hlenr : val.reverse.length = fmt.reverse.length := by simp [hlen]
    have hzipr : fmt.reverse.zip val.reverse = (fmt.zip val).reverse :=
      zip_reverse' fmt val hfmtlen
    have hqr : ∀ q ∈ fmt.reverse.zip val.reverse,
        q.2 ∈ canonicalSymbols ∧ field_to_int q.2 < 2 ^ fmtCount q.1 := by
      intro q hmem
      rw [hzipr, List.mem_reverse] at hmem
      exact hq q hmem
    have hbl : (((ArbBitField.mk fmt val).bool rb true).map boolChar) =
        ((fmt.reverse.zip val.reverse).map
          (fun q => (encField (field_to_int q.2) (fmtCount q.1) rb).map boolChar)).flatten := by
      rw [hrev, bool_eq_zip fmt.reverse val.reverse rb hlenr, List.map_flatten, List.map_map]
      rfl
    have hgo : set_bool_go rb (((ArbBitField.mk fmt val).bool rb true).map boolChar)
        fmt.reverse 0 = val.reverse := by
      apply set_bool_go_decode rb fmt.reverse val.reverse _ [] 0 (by simp [hfmtlen]) hqr
      rw [List.drop_zero, hbl, List.append_nil]
    show (⟨fmt,
        (set_bool_go rb (((ArbBitField.mk fmt val).bool rb true).map boolChar)
          fmt.reverse 0).reverse⟩ : ArbBitField) = ArbBitField.mk fmt val
    rw [hgo, List.reverse_reverse]

/-- Claim C1: for every constructed layout whose value is well-formed (each
symbol's integer value fits in its field's bit width), decoding the encoded
boolean sequence with the same flags restores the object unchanged:
`set_bool(bool(rev_bits=b, rev_fields=f), rev_bits=b, rev_fields=f)` leaves
the Value equal to its prior contents, for all four combinations of the two
flags. -/
theorem roundtrip_set_bool_bool :
    ∀ (fmtS : List Char) (valS : Option (List Char)) (a : ArbBitField),
      init fmtS valS = .ok a →
      (∀ q ∈ a.fmt.zip a.val, field_to_int q.2 < 2 ^ fmtCount q.1) →
      ∀ rb rf : Bool, a.set_bool (a.bool rb rf) rb rf = a := by
  intro fmtS valS a hinit hfit rb rf
  obtain ⟨hfmt, hval⟩ := init_ok hinit
  have hlen : a.val.length = a.fmt.length := by rw [hval, clean_val_length]
  have hcan : ∀ q ∈ a.fmt.zip a.val,
      q.2 ∈ canonicalSymbols ∧ field_to_int q.2 < 2 ^ fmtCount q.1 := by
    intro q hmem
    refine ⟨?_, hfit q hmem⟩
    obtain ⟨f, v⟩ := q
    have hm : v ∈ a.val := (List.of_mem_zip hmem).2
    rw [hval] at hm
    exact legalValChars_sub_canonical v (clean_val_mem hm)
  exact roundtrip_core a.fmt a.val hlen hcan rb rf

theorem roundtrip_set_bool_bool_witness :
    ((⟨['3','4'], ['3','1']⟩ : ArbBitField).set_bool
        ((⟨['3','4'], ['3','1']⟩ : ArbBitField).bool true true) true true) =
      (⟨['3','4'], ['3','1']⟩ : ArbBitField) :=
  roundtrip_set_bool_bool ['3','4'] (some ['3','1']) ⟨['3','4'], ['3','1']⟩
    (by decide) (by decide) true true

theorem range_reverse_map (w : Nat) :
    (List.range w).reverse = (List.range w).map (fun j => w - 1 - j) := by
  apply List.ext_getElem
  · simp
  · intro i h1 h2
    simp [List.getElem_reverse, List.getElem_range]

/-- Claim C6: encoding expands each field's symbol value `v` into exactly
`width` booleans whose element `i` is bit `(v >> i) & 1` (`Nat.testBit v i`),
emitted MSB-first (index `width - 1 - i`) by default and LSB-first (index `i`)
when `rev_bits` is set; in particular, for format `"34"` and value `"31"`,
`bool()` with default flags returns `[F,T,T, F,F,F,T]`. -/
theorem bool_bit_encoding :
    (∀ (a : ArbBitField) (rb : Bool),
       a.val.length = a.fmt.length →
       (∀ c ∈ a.val, c ∈ canonicalSymbols) →
       a.bool rb false =
         ((a.fmt.zip a.val).map (fun q =>
           (List.range (fmtCount q.1)).map (fun i =>
             (symNat q.2).testBit (if rb then i else fmtCount q.1 - 1 - i)))).flatten) ∧
    (⟨['3','4'], ['3','1']⟩ : ArbBitField).bool false false =
      [false, true, true, false, false, false, true] := by
  constructor
  · intro a rb hlen hcan
    have ha : a = ArbBitField.mk a.fmt a.val := rfl
    rw [ha, bool_eq_zip a.fmt a.val rb hlen]
    refine congrArg List.flatten ?_
    apply List.map_congr_left
    intro q hmem
    obtain ⟨f, v⟩ := q
    have hv : v ∈ a.val := (List.of_mem_zip hmem).2
    have hcanv : v ∈ canonicalSymbols := hcan v hv
    rw [field_to_int_canonical v hcanv, encField_natCast]
    cases rb
    · simp only [Bool.false_eq_true, if_false]
      rw [range_reverse_map, List.map_map]
      rfl
    · simp
  · decide

theorem bool_bit_encoding_witness :
    (⟨['2','5'], ['3','V']⟩ : ArbBitField).bool true false =
      [true, true, true, true, true, true, true] := by
  have h := bool_bit_encoding.1 ⟨['2','5'], ['3','V']⟩ true (by decide) (by decide)
  rw [h]
  decide

end ArbBitField
